import Mathlib

/-!
Shallow embedding of the flypy_extension repository (generator.py and
transferer.py).  Strings are modelled as `List Char`; Python dicts as
association lists or functions; the write-only diagnostic sets are modelled
as returned deltas (the source only ever adds to them and never reads them,
so returning the additions is an exact model of the mutation).
-/

namespace Flypy

/-! ## generator.py : substitution pass -/

/-- Model of Python `s.replace(pat, rep)` for a non-empty pattern: scan left
to right, replace each non-overlapping occurrence, continue scanning after
the inserted replacement.  (Python's empty-pattern behaviour is irrelevant:
every pattern in `REPLACEMENTS` is non-empty.) -/
def pyReplace (pat rep : List Char) (s : List Char) : List Char :=
  match s with
  | [] => []
  | x :: xs =>
    if !pat.isEmpty && pat.isPrefixOf (x :: xs) then
      rep ++ pyReplace pat rep ((x :: xs).drop pat.length)
    else
      x :: pyReplace pat rep xs
termination_by s.length
decreasing_by
  · rename_i h
    simp only [Bool.and_eq_true, Bool.not_eq_true'] at h
    cases pat with
    | nil => simp at h
    | cons p ps => simp [List.length_drop, List.length_cons]; omega
  · simp [List.length_cons]

/-- Specialisation of `pyReplace` to a two-character pattern and a
two-character replacement (the only shape occurring in `REPLACEMENTS`),
written with structural recursion so that it computes by `rfl`. -/
def replace2 (a b c d : Char) : List Char → List Char
  | [] => []
  | [x] => [x]
  | x :: y :: t =>
    if x = a ∧ y = b then c :: d :: replace2 a b c d t
    else x :: replace2 a b c d (y :: t)

/-- Model of the `REPLACEMENTS` dict of generator.py, in insertion order. -/
def REPLACEMENTS : List ((Char × Char) × (Char × Char)) :=
  [(('甘', '一'), ('其', '上')),
   (('目', '一'), ('具', '上')),
   (('于', '八'), ('余', '下'))]

/-- Model of `apply_replacements`: join the parts (each part is a single
character), apply the three literal replacements in dict order, re-split
into single characters. -/
def apply_replacements (parts : List Char) : List Char :=
  REPLACEMENTS.foldl (fun s kv => replace2 kv.1.1 kv.1.2 kv.2.1 kv.2.2 s) parts

/-! ## generator.py : decomposition resolver

`expand_part(part, decomposition, rootmap, visited, missing_roots)` is a
recursive function over a possibly cyclic table; its Python termination
argument is the ever-growing `visited` set.  We embed it with an explicit
fuel parameter (`expandPartF`); the theorem for claim C2 shows that fuel
`decomposition.length` always suffices, so the fuel is a pure termination
device and `expand_part` below is the exact model.

A result value `some (res, v, md)` means: the call returned `res`
(`none` = Python `None`, `some roots` = the expanded root list), the
visited set grew from `visited` to `v`, and `md` lists the additions made
to the `missing_roots` set.  The outer `none` means "out of fuel". -/

/-- Decomposition table: insertion-ordered list of
(part, alternatives), each alternative an ordered list of sub-parts. -/
abbrev Decomp := List (Char × List (List Char))

/-- Root map: elementary symbol to its letter, `none` when absent. -/
abbrev RootMap := Char → Option Char

/-- Result of one resolver call: `none` = out of fuel, otherwise
(returned value, final visited set, additions to missing_roots). -/
abbrev ExpRes := Option (Option (List Char) × List Char × List Char)

/-- Inner loop `for sp in sub_parts` of `expand_part`: expand every
sub-part in order with the threaded visited set, concatenating the
results; the first failing sub-part abandons the alternative (`break`). -/
def trySubWith (exp : Char → List Char → ExpRes) :
    List Char → List Char → ExpRes
  | [], visited => some (some [], visited, [])
  | sp :: rest, visited =>
    match exp sp visited with
    | none => none
    | some (none, v, md) => some (none, v, md)
    | some (some r, v, md) =>
      match trySubWith exp rest v with
      | none => none
      | some (none, v2, md2) => some (none, v2, md ++ md2)
      | some (some r2, v2, md2) => some (some (r ++ r2), v2, md ++ md2)

/-- Outer loop `for sub_parts in decomposition[part]` of `expand_part`:
normalise each alternative with `apply_replacements`, try it, and return
the first fully successful one; set mutations made by failed attempts
persist, as in the source. -/
def tryAltsWith (exp : Char → List Char → ExpRes) :
    List (List Char) → List Char → ExpRes
  | [], visited => some (none, visited, [])
  | alt :: rest, visited =>
    match trySubWith exp (apply_replacements alt) visited with
    | none => none
    | some (some e, v, md) => some (some e, v, md)
    | some (none, v, md) =>
      match tryAltsWith exp rest v with
      | none => none
      | some (r, v2, md2) => some (r, v2, md ++ md2)

/-- One unfolding of `expand_part`, with the recursive occurrence
abstracted as `exp`: root-map base case, visited-set cycle guard,
`visited.add(part)`, the loop over alternatives, and the
`missing_roots.add(part)` failure exit. -/
def expandGo (dec : Decomp) (root : RootMap)
    (exp : Char → List Char → ExpRes) (part : Char) (visited : List Char) :
    ExpRes :=
  if (root part).isSome then some (some [part], visited, [])
  else if part ∈ visited then some (none, visited, [])
  else
    match dec.lookup part with
    | none => some (none, part :: visited, [part])
    | some alts =>
      match tryAltsWith exp alts (part :: visited) with
      | none => none
      | some (some e, v, md) => some (some e, v, md)
      | some (none, v, md) => some (none, v, md ++ [part])

/-- Fuel-indexed resolver: each unit of fuel allows one further level of
recursive descent into the decomposition table. -/
def expandPartF (dec : Decomp) (root : RootMap) :
    Nat → Char → List Char → ExpRes
  | 0 => expandGo dec root fun _ _ => none
  | fuel + 1 => expandGo dec root (expandPartF dec root fuel)

/-- Model of `expand_part`: run the fuel-indexed resolver with fuel
`dec.length`, which theorem `c2_resolver_terminates` proves sufficient;
the fallback arm is therefore dead code. -/
def expand_part (dec : Decomp) (root : RootMap) (part : Char)
    (visited : List Char) : Option (List Char) × List Char × List Char :=
  match expandPartF dec root dec.length part visited with
  | some r => r
  | none => (none, visited, [])

/-! ## generator.py : shape-code derivation -/

/-- Loop `for p in apply_replacements(parts)` of `get_code_for_decomp`:
expand every part with a fresh visited set (`set()`), returning the
concatenation, or `none` at the first failing part; the second component
collects the additions to `missing_roots`. -/
def expandAll (dec : Decomp) (root : RootMap) :
    List Char → Option (List Char) × List Char
  | [] => (some [], [])
  | p :: rest =>
    match expand_part dec root p [] with
    | (none, _, md) => (none, md)
    | (some r, _, md) =>
      match expandAll dec root rest with
      | (none, md2) => (none, md ++ md2)
      | (some r2, md2) => (some (r ++ r2), md ++ md2)

/-- Model of `get_code_for_decomp`: result is (returned code or `None`,
additions to `missing_roots`, the appended `singlecode_chars` entry if
any).  The letters are `[rootmap[p] for p in expanded if p in rootmap]`;
an empty or single-letter sequence fails, four or more letters keep the
first three plus the last, otherwise the whole sequence is the code. -/
def get_code_for_decomp (dec : Decomp) (root : RootMap) (parts : List Char)
    (char : Char) :
    Option (List Char) × List Char × Option (Char × List Char) :=
  match expandAll dec root (apply_replacements parts) with
  | (none, md) => (none, md, none)
  | (some expanded, md) =>
    match expanded.filterMap root with
    | [] => (none, md, none)
    | [_] => (none, md, some (char, parts))
    | [a, b] => (some [a, b], md, none)
    | [a, b, c] => (some [a, b, c], md, none)
    | a :: b :: c :: d :: rest => (some [a, b, c, rest.getLastD d], md, none)

/-! ## generator.py : stage-1 driver -/

/-- Loop `for parts in decomps` of generator `main`: every alternative
whose code is truthy (`if code:`) contributes an output row; the flag is
Python's `success`; the last two components collect the additions to
`missing_roots` and `singlecode_chars`. -/
def processAlts (dec : Decomp) (root : RootMap) (char : Char) :
    List (List Char) →
    List (Char × List Char) × Bool × List Char × List (Char × List Char)
  | [] => ([], false, [], [])
  | parts :: rest =>
    match get_code_for_decomp dec root parts char with
    | (code, md, se) =>
      match processAlts dec root char rest with
      | (rows, succ, md2, sc2) =>
        match code with
        | some c =>
          if c.isEmpty then (rows, succ, md ++ md2, se.toList ++ sc2)
          else ((char, c) :: rows, true, md ++ md2, se.toList ++ sc2)
        | none => (rows, succ, md ++ md2, se.toList ++ sc2)

/-- Loop `for char, decomps in decomposition.items()` of generator
`main`: result is (output rows, missing_roots additions,
singlecode_chars entries, missing_lines entries). -/
def generatorMain (dec : Decomp) (root : RootMap) :
    Decomp →
    List (Char × List Char) × List Char × List (Char × List Char) ×
      List (Char × List Char)
  | [] => ([], [], [], [])
  | (char, decomps) :: rest =>
    match processAlts dec root char decomps with
    | (rows, succ, md, sc) =>
      match generatorMain dec root rest with
      | (rows2, md2, sc2, ml2) =>
        (rows ++ rows2, md ++ md2, sc ++ sc2,
         (if succ then [] else decomps.map fun parts => (char, parts)) ++ ml2)

/-! ## transferer.py : static tables -/

/-- Model of `_XH = _build_xiaohe_map(_RAW_XIAOHE)`: token to key letter,
in insertion order of the raw scheme table, keys lowercased. -/
def XH : List (List Char × Char) :=
  [(['i', 'u'], 'q'), (['e', 'i'], 'w'), (['u', 'a', 'n'], 'r'),
   (['u', 'e'], 't'), (['v', 'e'], 't'), (['u', 'n'], 'y'),
   (['s', 'h'], 'u'), (['c', 'h'], 'i'), (['u', 'o'], 'o'),
   (['i', 'e'], 'p'), (['i', 'o', 'n', 'g'], 's'), (['o', 'n', 'g'], 's'),
   (['a', 'i'], 'd'), (['e', 'n'], 'f'), (['e', 'n', 'g'], 'g'),
   (['a', 'n', 'g'], 'h'), (['a', 'n'], 'j'), (['i', 'n', 'g'], 'k'),
   (['u', 'a', 'i'], 'k'), (['i', 'a', 'n', 'g'], 'l'),
   (['u', 'a', 'n', 'g'], 'l'), (['o', 'u'], 'z'), (['i', 'a'], 'x'),
   (['u', 'a'], 'x'), (['a', 'o'], 'c'), (['u', 'i'], 'v'),
   (['i', 'n'], 'b'), (['i', 'a', 'o'], 'n'), (['i', 'a', 'n'], 'm')]

/-- Model of `_INITIALS`, in source order. -/
def INITIALS : List (List Char) :=
  [['z', 'h'], ['c', 'h'], ['s', 'h'],
   ['b'], ['p'], ['m'], ['f'], ['d'], ['t'], ['n'], ['l'],
   ['g'], ['k'], ['h'], ['j'], ['q'], ['x'], ['r'], ['z'], ['c'], ['s'],
   ['y'], ['w']]

/-- Model of `_SINGLE_VOWELS`. -/
def SINGLE_VOWELS : List (List Char) :=
  [['a'], ['o'], ['e'], ['i'], ['u'], ['v']]

/-- Dict lookup in `_XH` (first matching key of the association list;
keys are distinct, so this is exact). -/
def xhLookup (t : List Char) : Option Char := XH.lookup t

/-- Model of `sorted(_XH.keys(), key=lambda s: -len(s))` followed by the
`_XH[k]` lookups: the scheme pairs sorted by descending key length.  Any
stable or unstable sort gives the same observable behaviour here, because
two distinct keys of equal length are never both suffixes of one final. -/
def xhSorted : List (List Char × Char) :=
  List.insertionSort (fun x y => y.1.length ≤ x.1.length) XH

/-- Model of `sorted(_INITIALS, key=lambda s: -len(s))`. -/
def initialsSorted : List (List Char) :=
  List.insertionSort (fun x y => y.length ≤ x.length) INITIALS

/-! ## transferer.py : transliterator -/

/-- Model of `_split_initial_final`: longest-match a known initial as a
prefix; on failure the initial is empty and the whole token is the
final. -/
def _split_initial_final (p : List Char) : List Char × List Char :=
  match initialsSorted.find? (fun init => init.isPrefixOf p) with
  | some init => (init, p.drop init.length)
  | none => ([], p)

/-- Shared second-letter rule of `_xiaohe_double` and
`_xiaohe_double_for_zero_initial`: exact `_XH` lookup of the final, else
the scheme letter of the longest `_XH` key that is a suffix of the final,
else the final's first letter (empty when the final is empty — in the
zero-initial caller the final is guarded non-empty, so `take 1` coincides
with Python's `final[0]` there). -/
def _second_for_final (fin : List Char) : List Char :=
  match xhLookup fin with
  | some v => [v]
  | none =>
    match xhSorted.find? (fun kv => kv.1.isSuffixOf fin) with
    | some kv => [kv.2]
    | none => fin.take 1

/-- Model of `_xiaohe_double_for_zero_initial`.  (Python tests
`final.isalpha()` on the whole string under `len(final) == 1`; we test
the single character.  For any single letter all branches agree, see
`c6_zero_initial_single_letter`.) -/
def _xiaohe_double_for_zero_initial (final : List Char) :
    List Char × List Char :=
  if final = [] then ([], [])
  else if final ∈ SINGLE_VOWELS ∨
      (final.length = 1 ∧ (final.headD ' ').isAlpha) then
    (final.take 1, final.take 1)
  else
    (final.take 1, _second_for_final final)

/-- Model of `_xiaohe_double`; `none` models the raised `ValueError`. -/
def _xiaohe_double (pinyin : List Char) : Option (List Char × List Char) :=
  match _split_initial_final pinyin with
  | (init, fin) =>
    if init = [] then some (_xiaohe_double_for_zero_initial fin)
    else
      match (match xhLookup init with
             | some v => ([v] : List Char)
             | none => init.take 1),
            _second_for_final fin with
      | first, second =>
        if first = [] ∨ second = [] then none else some (first, second)

/-! ## transferer.py : stage-2 driver

`main` of transferer.py is modelled with the file I/O stripped: the shape
table is an insertion-ordered association list, the pinyin database a
function returning the (possibly empty) reading list — the source treats
a missing character and an empty reading list identically
(`if not pinyins`).  `Except.error (ch, shape)` models the
`raise SystemExit` on a shape code of length < 2: no output rows exist in
that case, matching the source, which only writes `OUT_FILE` after the
loop completes. -/

/-- Loop `for p in pinyins`: one output row per convertible reading, and
the `cannot_convert` entries for the readings whose conversion fails. -/
def processPinyins (ch : Char) (shape : List Char) :
    List (List Char) → List (Char × List Char) × List (Char × List Char)
  | [] => ([], [])
  | p :: rest =>
    match processPinyins ch shape rest with
    | (rows, cc) =>
      match _xiaohe_double p with
      | none => (rows, (ch, p) :: cc)
      | some (a, b) =>
        ((ch, a ++ b ++ shape.take 1 ++ shape.drop (shape.length - 1)) :: rows,
         cc)

/-- Loop `for shape in shape_list`: the fatal length check runs before
anything else for each shape code; on success the rows of all shapes are
concatenated. -/
def processShapes (ch : Char) (pinyins : List (List Char)) :
    List (List Char) →
    Except (Char × List Char)
      (List (Char × List Char) × List (Char × List Char))
  | [] => .ok ([], [])
  | shape :: rest =>
    if shape.length < 2 then .error (ch, shape)
    else
      match processPinyins ch shape pinyins with
      | (rows, cc) =>
        match processShapes ch pinyins rest with
        | .error e => .error e
        | .ok (rows2, cc2) => .ok (rows ++ rows2, cc ++ cc2)

/-- Loop `for ch, shape_list in shape_map.items()` of transferer `main`:
result is `.error (ch, shape)` on the fatal single-letter abort, else
(output rows, missing_pinyin characters, cannot_convert entries). -/
def transfererMain (pm : Char → List (List Char)) :
    List (Char × List (List Char)) →
    Except (Char × List Char)
      (List (Char × List Char) × List Char × List (Char × List Char))
  | [] => .ok ([], [], [])
  | (ch, shapes) :: rest =>
    if pm ch = [] then
      match transfererMain pm rest with
      | .error e => .error e
      | .ok (rows, mp, cc) => .ok (rows, ch :: mp, cc)
    else
      match processShapes ch (pm ch) shapes with
      | .error e => .error e
      | .ok (rows, cc) =>
        match transfererMain pm rest with
        | .error e => .error e
        | .ok (rows2, mp2, cc2) => .ok (rows ++ rows2, mp2, cc ++ cc2)

/-! ## Lemmas about the substitution pass -/

/-- The general `str.replace` model agrees with its two-character
specialisation on every input. -/
theorem pyReplace_eq_replace2 (a b c d : Char) (s : List Char) :
    pyReplace [a, b] [c, d] s = replace2 a b c d s := by
  induction s using replace2.induct a b c d with
  | case1 => simp [pyReplace, replace2]
  | case2 x => simp [pyReplace, replace2, List.isPrefixOf]
  | case3 x y t h ih =>
    obtain ⟨rfl, rfl⟩ := h
    rw [pyReplace]
    simp [List.isPrefixOf, replace2, ih]
  | case4 x y t h ih =>
    rw [pyReplace]
    have hne : ¬(a = x ∧ b = y) := fun hc => h ⟨hc.1.symm, hc.2.symm⟩
    simp only [List.isPrefixOf, List.isEmpty_cons, Bool.not_false, Bool.true_and]
    rw [if_neg, replace2, if_neg h, ih]
    simp only [Bool.and_eq_true, beq_iff_eq, List.isPrefixOf_nil_left, and_true]
    exact hne

/-- Does the two-character pattern `p, q` occur contiguously in `s`? -/
def hasPair (p q : Char) : List Char → Bool
  | [] => false
  | [_] => false
  | x :: y :: t => (x == p && y == q) || hasPair p q (y :: t)

theorem hasPair_cons_of_ne (p q x : Char) (l : List Char) (h : x ≠ p) :
    hasPair p q (x :: l) = hasPair p q l := by
  cases l with
  | nil => simp [hasPair]
  | cons y t => simp [hasPair, h]

theorem hasPair_tail (p q x : Char) (l : List Char)
    (h : hasPair p q (x :: l) = false) : hasPair p q l = false := by
  cases l with
  | nil => simp [hasPair]
  | cons y t =>
    rw [hasPair] at h
    exact (Bool.or_eq_false_iff.mp h).2

/-- A list without an occurrence of the pattern is left unchanged. -/
theorem replace2_of_not_hasPair (a b c d : Char) (s : List Char)
    (h : hasPair a b s = false) : replace2 a b c d s = s := by
  induction s using replace2.induct a b c d with
  | case1 => rfl
  | case2 x => rfl
  | case3 x y t hm ih =>
    exfalso
    rw [hasPair] at h
    simp [hm.1, hm.2] at h
  | case4 x y t hm ih =>
    rw [replace2, if_neg hm, ih (hasPair_tail _ _ _ _ h)]

/-- Replacing the pattern `a, b` by `c, d` removes every occurrence of
`a, b`, provided the replacement cannot recreate one: `d ≠ a`, `c ≠ b`
and `(c, d) ≠ (a, b)`. -/
theorem hasPair_replace2_self (a b c d : Char) (hda : d ≠ a) (hcb : c ≠ b)
    (hcd : ¬(c = a ∧ d = b)) (s : List Char) :
    hasPair a b (replace2 a b c d s) = false := by
  induction s using replace2.induct a b c d with
  | case1 => rfl
  | case2 x => rfl
  | case3 x y t hm ih =>
    obtain ⟨rfl, rfl⟩ := hm
    rw [replace2, if_pos ⟨rfl, rfl⟩, hasPair]
    rw [hasPair_cons_of_ne _ _ _ _ hda, ih]
    have hb : (c == x && d == y) = false := by
      by_cases h1 : c = x
      · have h2 : d ≠ y := fun hd => hcd ⟨h1, hd⟩
        simp [h2]
      · simp [h1]
    simp [hb]
  | case4 x y t hm ih =>
    rw [replace2, if_neg hm]
    by_cases hxa : x = a
    · have hyb : y ≠ b := fun hy => hm ⟨hxa, hy⟩
      cases t with
      | nil =>
        rw [replace2, hasPair, hasPair]
        simp [hyb]
      | cons z t' =>
        rw [replace2]
        by_cases hyz : y = a ∧ z = b
        · rw [if_pos hyz, hasPair]
          rw [replace2, if_pos hyz] at ih
          rw [ih]
          simp [hcb]
        · rw [if_neg hyz, hasPair]
          rw [replace2, if_neg hyz] at ih
          rw [ih]
          simp [hyb]
    · rw [hasPair_cons_of_ne _ _ _ _ hxa, ih]

/-- Replacing the pattern `a, b` by `c, d` cannot introduce an occurrence
of a different pattern `p, q`, provided `c ≠ p`, `d ≠ p` and `c ≠ q`. -/
theorem hasPair_replace2_other (a b c d p q : Char) (hcp : c ≠ p)
    (hdp : d ≠ p) (hcq : c ≠ q) (s : List Char)
    (h : hasPair p q s = false) :
    hasPair p q (replace2 a b c d s) = false := by
  induction s using replace2.induct a b c d with
  | case1 => rfl
  | case2 x => rwa [replace2]
  | case3 x y t hm ih =>
    obtain ⟨rfl, rfl⟩ := hm
    rw [replace2, if_pos ⟨rfl, rfl⟩, hasPair]
    rw [hasPair_cons_of_ne _ _ _ _ hdp, ih (hasPair_tail _ _ _ _ (hasPair_tail _ _ _ _ h))]
    simp [hcp]
  | case4 x y t hm ih =>
    rw [replace2, if_neg hm]
    have ih' := ih (hasPair_tail _ _ _ _ h)
    by_cases hxp : x = p
    · subst hxp
      have hyq : y ≠ q := by
        intro hy
        subst hy
        rw [hasPair] at h
        simp at h
      cases t with
      | nil =>
        rw [replace2] at ih' ⊢
        rw [hasPair, hasPair]
        simp [hyq]
      | cons z t' =>
        rw [replace2] at ih' ⊢
        by_cases hyz : y = a ∧ z = b
        · rw [if_pos hyz] at ih' ⊢
          rw [hasPair, ih']
          simp [hcq]
        · rw [if_neg hyz] at ih' ⊢
          rw [hasPair, ih']
          simp [hyq]
    · rw [hasPair_cons_of_ne _ _ _ _ hxp, ih']

/-- After the full substitution pass no replacement pattern occurs in the
output: each rule eliminates its own pattern and no rule's replacement
text can recreate an earlier rule's pattern. -/
theorem apply_replacements_no_pattern (parts : List Char) :
    hasPair '甘' '一' (apply_replacements parts) = false ∧
    hasPair '目' '一' (apply_replacements parts) = false ∧
    hasPair '于' '八' (apply_replacements parts) = false := by
  refine ⟨?_, ?_, ?_⟩
  · exact hasPair_replace2_other _ _ _ _ _ _ (by decide) (by decide) (by decide) _
      (hasPair_replace2_other _ _ _ _ _ _ (by decide) (by decide) (by decide) _
        (hasPair_replace2_self _ _ _ _ (by decide) (by decide) (by decide) parts))
  · exact hasPair_replace2_other _ _ _ _ _ _ (by decide) (by decide) (by decide) _
      (hasPair_replace2_self _ _ _ _ (by decide) (by decide) (by decide) _)
  · exact hasPair_replace2_self _ _ _ _ (by decide) (by decide) (by decide) _

/-- The substitution pass is idempotent. -/
theorem apply_replacements_idem (parts : List Char) :
    apply_replacements (apply_replacements parts) = apply_replacements parts := by
  obtain ⟨h1, h2, h3⟩ := apply_replacements_no_pattern parts
  show replace2 '于' '八' '余' '下' (replace2 '目' '一' '具' '上'
      (replace2 '甘' '一' '其' '上' (apply_replacements parts))) =
    apply_replacements parts
  rw [replace2_of_not_hasPair _ _ _ _ _ h1, replace2_of_not_hasPair _ _ _ _ _ h2,
      replace2_of_not_hasPair _ _ _ _ _ h3]

/-- C8: the Substitution Pass is idempotent: for every sequence of part
identifiers, applying the pass twice yields the same result as applying
it once — no replacement pattern matches the output of a first
application. -/
theorem c8_substitution_pass_idempotent (parts : List Char) :
    apply_replacements (apply_replacements parts) = apply_replacements parts :=
  apply_replacements_idem parts

/-- C7: the Substitution Pass runs before every recursive expansion call
of the Decomposition Resolver: each alternative is normalised by
`apply_replacements` before any of its sub-parts is expanded (so
pre-normalising an alternative, or the top-level part sequence handed to
the Shape-Code Deriver, changes nothing in the derived result), which is
exactly the claimed idempotent-safety of re-application. -/
theorem c7_substitution_before_every_expansion :
    (∀ (exp : Char → List Char → ExpRes) (alt : List Char)
      (rest : List (List Char)) (visited : List Char),
      tryAltsWith exp (alt :: rest) visited =
        tryAltsWith exp (apply_replacements alt :: rest) visited) ∧
    (∀ (dec : Decomp) (root : RootMap) (parts : List Char) (char : Char),
      (get_code_for_decomp dec root parts char).1 =
        (get_code_for_decomp dec root (apply_replacements parts) char).1) := by
  constructor
  · intro exp alt rest visited
    rw [tryAltsWith, tryAltsWith, apply_replacements_idem]
  · intro dec root parts char
    simp only [get_code_for_decomp, apply_replacements_idem]
    rcases expandAll dec root (apply_replacements parts) with ⟨eo, md⟩
    cases eo with
    | none => rfl
    | some expanded =>
      rcases h : expanded.filterMap root with _ | ⟨a, _ | ⟨b, _ | ⟨c, _ | ⟨d, rest⟩⟩⟩⟩ <;>
        simp [h]

/-! ## Lemmas about the decomposition resolver -/

theorem trySubWith_mono (exp : Char → List Char → ExpRes)
    (hexp : ∀ p v r vv md, exp p v = some (r, vv, md) → v ⊆ vv) :
    ∀ (sub v : List Char) (r : Option (List Char)) (vv md : List Char),
      trySubWith exp sub v = some (r, vv, md) → v ⊆ vv := by
  intro sub
  induction sub with
  | nil =>
    intro v r vv md h
    rw [trySubWith] at h
    simp only [Option.some.injEq, Prod.mk.injEq] at h
    exact h.2.1 ▸ List.Subset.refl v
  | cons sp rest ih =>
    intro v r vv md h
    rw [trySubWith] at h
    cases hsp : exp sp v with
    | none => rw [hsp] at h; simp at h
    | some res =>
      obtain ⟨ro, v', md'⟩ := res
      rw [hsp] at h
      have hv1 : v ⊆ v' := hexp sp v ro v' md' hsp
      cases ro with
      | none =>
        simp only [Option.some.injEq, Prod.mk.injEq] at h
        exact h.2.1 ▸ hv1
      | some r' =>
        dsimp only at h
        cases hrest : trySubWith exp rest v' with
        | none => rw [hrest] at h; simp at h
        | some res2 =>
          obtain ⟨ro2, v2, md2⟩ := res2
          rw [hrest] at h
          have hv2 : v' ⊆ v2 := ih v' ro2 v2 md2 hrest
          cases ro2 with
          | none =>
            dsimp only at h
            simp only [Option.some.injEq, Prod.mk.injEq] at h
            exact h.2.1 ▸ hv1.trans hv2
          | some r2 =>
            dsimp only at h
            simp only [Option.some.injEq, Prod.mk.injEq] at h
            exact h.2.1 ▸ hv1.trans hv2

theorem tryAltsWith_mono (exp : Char → List Char → ExpRes)
    (hexp : ∀ p v r vv md, exp p v = some (r, vv, md) → v ⊆ vv) :
    ∀ (alts : List (List Char)) (v : List Char) (r : Option (List Char))
      (vv md : List Char),
      tryAltsWith exp alts v = some (r, vv, md) → v ⊆ vv := by
  intro alts
  induction alts with
  | nil =>
    intro v r vv md h
    rw [tryAltsWith] at h
    simp only [Option.some.injEq, Prod.mk.injEq] at h
    exact h.2.1 ▸ List.Subset.refl v
  | cons alt rest ih =>
    intro v r vv md h
    rw [tryAltsWith] at h
    cases hsub : trySubWith exp (apply_replacements alt) v with
    | none => rw [hsub] at h; simp at h
    | some res =>
      obtain ⟨ro, v', md'⟩ := res
      rw [hsub] at h
      have hv1 : v ⊆ v' := trySubWith_mono exp hexp _ v ro v' md' hsub
      cases ro with
      | some e =>
        simp only [Option.some.injEq, Prod.mk.injEq] at h
        exact h.2.1 ▸ hv1
      | none =>
        dsimp only at h
        cases hrest : tryAltsWith exp rest v' with
        | none => rw [hrest] at h; simp at h
        | some res2 =>
          obtain ⟨ro2, v2, md2⟩ := res2
          rw [hrest] at h
          dsimp only at h
          have hv2 : v' ⊆ v2 := ih v' ro2 v2 md2 hrest
          simp only [Option.some.injEq, Prod.mk.injEq] at h
          exact h.2.1 ▸ hv1.trans hv2

theorem expandGo_mono (dec : Decomp) (root : RootMap)
    (exp : Char → List Char → ExpRes)
    (hexp : ∀ p v r vv md, exp p v = some (r, vv, md) → v ⊆ vv)
    (part : Char) (visited : List Char) (r : Option (List Char))
    (vv md : List Char)
    (h : expandGo dec root exp part visited = some (r, vv, md)) :
    visited ⊆ vv := by
  rw [expandGo] at h
  by_cases h1 : (root part).isSome
  · rw [if_pos h1] at h
    simp only [Option.some.injEq, Prod.mk.injEq] at h
    exact h.2.1 ▸ List.Subset.refl _
  · rw [if_neg h1] at h
    by_cases h2 : part ∈ visited
    · rw [if_pos h2] at h
      simp only [Option.some.injEq, Prod.mk.injEq] at h
      exact h.2.1 ▸ List.Subset.refl _
    · rw [if_neg h2] at h
      have hsub : visited ⊆ part :: visited := List.subset_cons_self part visited
      cases hlk : dec.lookup part with
      | none =>
        rw [hlk] at h
        simp only [Option.some.injEq, Prod.mk.injEq] at h
        exact h.2.1 ▸ hsub
      | some alts =>
        rw [hlk] at h
        dsimp only at h
        cases halts : tryAltsWith exp alts (part :: visited) with
        | none => rw [halts] at h; simp at h
        | some res =>
          obtain ⟨ro, v', md'⟩ := res
          rw [halts] at h
          have hv : part :: visited ⊆ v' :=
            tryAltsWith_mono exp hexp alts (part :: visited) ro v' md' halts
          cases ro with
          | some e =>
            dsimp only at h
            simp only [Option.some.injEq, Prod.mk.injEq] at h
            exact h.2.1 ▸ hsub.trans hv
          | none =>
            dsimp only at h
            simp only [Option.some.injEq, Prod.mk.injEq] at h
            exact h.2.1 ▸ hsub.trans hv

theorem expandPartF_mono (dec : Decomp) (root : RootMap) :
    ∀ (fuel : Nat) (part : Char) (visited : List Char)
      (r : Option (List Char)) (vv md : List Char),
      expandPartF dec root fuel part visited = some (r, vv, md) →
        visited ⊆ vv := by
  intro fuel
  induction fuel with
  | zero =>
    intro part visited r vv md h
    exact expandGo_mono dec root _ (fun p v r vv md h => by simp at h)
      part visited r vv md h
  | succ f ih =>
    intro part visited r vv md h
    exact expandGo_mono dec root _ ih part visited r vv md h

/-- A part already in the visited set (and not a root) fails immediately,
for any recursion depth. -/
theorem expandGo_guard (dec : Decomp) (root : RootMap)
    (exp : Char → List Char → ExpRes) (part : Char) (visited : List Char)
    (h1 : root part = none) (h2 : part ∈ visited) :
    expandGo dec root exp part visited = some (none, visited, []) := by
  rw [expandGo, if_neg (by simp [h1]), if_pos h2]

theorem expandPartF_guard (dec : Decomp) (root : RootMap) (fuel : Nat)
    (part : Char) (visited : List Char) (h1 : root part = none)
    (h2 : part ∈ visited) :
    expandPartF dec root fuel part visited = some (none, visited, []) := by
  cases fuel with
  | zero => exact expandGo_guard _ _ _ _ _ h1 h2
  | succ f => exact expandGo_guard _ _ _ _ _ h1 h2

/-- A non-root part not yet visited is in the visited set after its
expansion returns, whether the expansion succeeded or failed. -/
theorem expandGo_adds (dec : Decomp) (root : RootMap)
    (exp : Char → List Char → ExpRes)
    (hexp : ∀ p v r vv md, exp p v = some (r, vv, md) → v ⊆ vv)
    (part : Char) (visited : List Char) (r : Option (List Char))
    (vv md : List Char) (h1 : root part = none) (h2 : part ∉ visited)
    (h : expandGo dec root exp part visited = some (r, vv, md)) :
    part ∈ vv := by
  rw [expandGo, if_neg (by simp [h1]), if_neg h2] at h
  cases hlk : dec.lookup part with
  | none =>
    rw [hlk] at h
    simp only [Option.some.injEq, Prod.mk.injEq] at h
    exact h.2.1 ▸ List.mem_cons_self part visited
  | some alts =>
    rw [hlk] at h
    dsimp only at h
    cases halts : tryAltsWith exp alts (part :: visited) with
    | none => rw [halts] at h; simp at h
    | some res =>
      obtain ⟨ro, v', md'⟩ := res
      rw [halts] at h
      have hv : part :: visited ⊆ v' :=
        tryAltsWith_mono exp hexp alts (part :: visited) ro v' md' halts
      cases ro with
      | some e =>
        dsimp only at h
        simp only [Option.some.injEq, Prod.mk.injEq] at h
        exact h.2.1 ▸ hv (List.mem_cons_self part visited)
      | none =>
        dsimp only at h
        simp only [Option.some.injEq, Prod.mk.injEq] at h
        exact h.2.1 ▸ hv (List.mem_cons_self part visited)

theorem expandPartF_adds (dec : Decomp) (root : RootMap) (fuel : Nat)
    (part : Char) (visited : List Char) (r : Option (List Char))
    (vv md : List Char) (h1 : root part = none) (h2 : part ∉ visited)
    (h : expandPartF dec root fuel part visited = some (r, vv, md)) :
    part ∈ vv := by
  cases fuel with
  | zero =>
    exact expandGo_adds dec root _ (fun p v r vv md h => by simp at h)
      part visited r vv md h1 h2 h
  | succ f =>
    exact expandGo_adds dec root _ (expandPartF_mono dec root f)
      part visited r vv md h1 h2 h

/-! ## Fuel sufficiency -/

/-- Number of decomposition-table keys not yet visited; the measure that
shrinks at every recursive descent of the resolver. -/
def keysLeft (dec : Decomp) (visited : List Char) : Nat :=
  ((dec.map Prod.fst).toFinset \ visited.toFinset).card

theorem keysLeft_le_length (dec : Decomp) (visited : List Char) :
    keysLeft dec visited ≤ dec.length := by
  calc ((dec.map Prod.fst).toFinset \ visited.toFinset).card
      ≤ (dec.map Prod.fst).toFinset.card :=
        Finset.card_le_card Finset.sdiff_subset
    _ ≤ (dec.map Prod.fst).length := (dec.map Prod.fst).toFinset_card_le
    _ = dec.length := List.length_map _ _

theorem keysLeft_anti (dec : Decomp) (visited v : List Char)
    (h : visited ⊆ v) : keysLeft dec v ≤ keysLeft dec visited := by
  apply Finset.card_le_card
  apply Finset.sdiff_subset_sdiff (Finset.Subset.refl _)
  intro x hx
  rw [List.mem_toFinset] at hx ⊢
  exact h hx

theorem keysLeft_cons_lt (dec : Decomp) (visited : List Char) (part : Char)
    (hmem : part ∈ dec.map Prod.fst) (hnv : part ∉ visited) :
    keysLeft dec (part :: visited) < keysLeft dec visited := by
  apply Finset.card_lt_card
  rw [Finset.ssubset_iff_of_subset]
  · refine ⟨part, ?_, ?_⟩
    · rw [Finset.mem_sdiff, List.mem_toFinset, List.mem_toFinset]
      exact ⟨hmem, hnv⟩
    · rw [Finset.mem_sdiff, List.mem_toFinset, List.mem_toFinset]
      intro hc
      exact hc.2 (List.mem_cons_self part visited)
  · apply Finset.sdiff_subset_sdiff (Finset.Subset.refl _)
    intro x hx
    rw [List.mem_toFinset] at hx ⊢
    exact List.mem_cons_of_mem part hx

theorem lookup_mem_keys (dec : Decomp) (part : Char)
    (alts : List (List Char)) (h : dec.lookup part = some alts) :
    part ∈ dec.map Prod.fst := by
  induction dec with
  | nil => simp [List.lookup] at h
  | cons kv rest ih =>
    obtain ⟨k, b⟩ := kv
    rw [List.lookup] at h
    cases hk : part == k with
    | true =>
      simp only [List.map, List.mem_cons]
      exact Or.inl (beq_iff_eq.mp hk)
    | false =>
      rw [hk] at h
      exact List.mem_cons_of_mem _ (ih h)

theorem trySubWith_progress (dec : Decomp)
    (exp : Char → List Char → ExpRes) (f : Nat)
    (hexp : ∀ p v, keysLeft dec v ≤ f → (exp p v).isSome)
    (hmono : ∀ p v r vv md, exp p v = some (r, vv, md) → v ⊆ vv) :
    ∀ (sub v : List Char), keysLeft dec v ≤ f →
      (trySubWith exp sub v).isSome := by
  intro sub
  induction sub with
  | nil => intro v hv; rw [trySubWith]; rfl
  | cons sp rest ih =>
    intro v hv
    rw [trySubWith]
    cases hsp : exp sp v with
    | none => exact absurd (hsp ▸ hexp sp v hv) (by simp)
    | some res =>
      obtain ⟨ro, v', md'⟩ := res
      cases ro with
      | none => rfl
      | some r =>
        dsimp only
        have hv' : keysLeft dec v' ≤ f :=
          le_trans (keysLeft_anti dec v v' (hmono sp v _ v' md' hsp)) hv
        cases hrest : trySubWith exp rest v' with
        | none => exact absurd (hrest ▸ ih v' hv') (by simp)
        | some res2 =>
          obtain ⟨ro2, v2, md2⟩ := res2
          cases ro2 with
          | none => rfl
          | some r2 => rfl

theorem tryAltsWith_progress (dec : Decomp)
    (exp : Char → List Char → ExpRes) (f : Nat)
    (hexp : ∀ p v, keysLeft dec v ≤ f → (exp p v).isSome)
    (hmono : ∀ p v r vv md, exp p v = some (r, vv, md) → v ⊆ vv) :
    ∀ (alts : List (List Char)) (v : List Char), keysLeft dec v ≤ f →
      (tryAltsWith exp alts v).isSome := by
  intro alts
  induction alts with
  | nil => intro v hv; rw [tryAltsWith]; rfl
  | cons alt rest ih =>
    intro v hv
    rw [tryAltsWith]
    cases hsub : trySubWith exp (apply_replacements alt) v with
    | none =>
      exact absurd (hsub ▸ trySubWith_progress dec exp f hexp hmono _ v hv)
        (by simp)
    | some res =>
      obtain ⟨ro, v', md'⟩ := res
      cases ro with
      | some e => rfl
      | none =>
        dsimp only
        have hv' : keysLeft dec v' ≤ f :=
          le_trans (keysLeft_anti dec v v'
            (trySubWith_mono exp hmono _ v _ v' md' hsub)) hv
        cases hrest : tryAltsWith exp rest v' with
        | none => exact absurd (hrest ▸ ih v' hv') (by simp)
        | some res2 => obtain ⟨ro2, v2, md2⟩ := res2; rfl

theorem expandGo_progress (dec : Decomp) (root : RootMap)
    (exp : Char → List Char → ExpRes) (f : Nat)
    (hexp : ∀ p v, keysLeft dec v ≤ f → (exp p v).isSome)
    (hmono : ∀ p v r vv md, exp p v = some (r, vv, md) → v ⊆ vv)
    (part : Char) (v : List Char) (hkl : keysLeft dec v ≤ f + 1) :
    (expandGo dec root exp part v).isSome := by
  rw [expandGo]
  by_cases h1 : (root part).isSome
  · rw [if_pos h1]; rfl
  · rw [if_neg h1]
    by_cases h2 : part ∈ v
    · rw [if_pos h2]; rfl
    · rw [if_neg h2]
      cases hlk : dec.lookup part with
      | none => rfl
      | some alts =>
        dsimp only
        have hlt : keysLeft dec (part :: v) < keysLeft dec v :=
          keysLeft_cons_lt dec v part (lookup_mem_keys dec part alts hlk) h2
        have hle : keysLeft dec (part :: v) ≤ f := by omega
        cases halts : tryAltsWith exp alts (part :: v) with
        | none =>
          exact absurd
            (halts ▸ tryAltsWith_progress dec exp f hexp hmono alts _ hle)
            (by simp)
        | some res =>
          obtain ⟨ro, v', md'⟩ := res
          cases ro with
          | some e => rfl
          | none => rfl

theorem expandGo_progress_zero (dec : Decomp) (root : RootMap) (part : Char)
    (v : List Char) (hkl : keysLeft dec v = 0) :
    (expandGo dec root (fun _ _ => none) part v).isSome := by
  rw [expandGo]
  by_cases h1 : (root part).isSome
  · rw [if_pos h1]; rfl
  · rw [if_neg h1]
    by_cases h2 : part ∈ v
    · rw [if_pos h2]; rfl
    · rw [if_neg h2]
      cases hlk : dec.lookup part with
      | none => rfl
      | some alts =>
        exact absurd
          (keysLeft_cons_lt dec v part (lookup_mem_keys dec part alts hlk) h2)
          (by omega)

/-- Fuel `fuel` suffices whenever at most `fuel` decomposition keys are
still unvisited; since at most `dec.length` keys exist at all, fuel
`dec.length` always suffices. -/
theorem expandPartF_progress (dec : Decomp) (root : RootMap) :
    ∀ (fuel : Nat) (part : Char) (v : List Char), keysLeft dec v ≤ fuel →
      (expandPartF dec root fuel part v).isSome := by
  intro fuel
  induction fuel with
  | zero =>
    intro part v h
    exact expandGo_progress_zero dec root part v (Nat.le_zero.mp h)
  | succ f ih =>
    intro part v h
    exact expandGo_progress dec root _ f ih (expandPartF_mono dec root f)
      part v h


/-- C2: for every part and every decomposition table, including tables
containing cycles, the Decomposition Resolver terminates: fuel
`dec.length` always produces a definite result (so `expand_part` is
total and its out-of-fuel fallback arm is dead code); and a part already
present in the visited set whose symbol is not in the Root Map returns
failure immediately, at every recursion depth — the cycle guard that
makes a root-map-free decomposition cycle fail instead of looping. -/
theorem c2_resolver_terminates :
    (∀ (dec : Decomp) (root : RootMap) (part : Char) (visited : List Char),
      expandPartF dec root dec.length part visited =
        some (expand_part dec root part visited)) ∧
    (∀ (dec : Decomp) (root : RootMap) (fuel : Nat) (part : Char)
      (visited : List Char), root part = none → part ∈ visited →
      expandPartF dec root fuel part visited = some (none, visited, [])) := by
  constructor
  · intro dec root part visited
    have h := expandPartF_progress dec root dec.length part visited
      (keysLeft_le_length dec visited)
    cases hE : expandPartF dec root dec.length part visited with
    | none => rw [hE] at h; simp at h
    | some r => simp only [expand_part, hE]
  · intro dec root fuel part visited h1 h2
    exact expandPartF_guard dec root fuel part visited h1 h2

/-- Cyclic two-element decomposition table used as the concrete witness
input for claims C2 and C9. -/
def decCyc : Decomp := [('甲', [['乙']]), ('乙', [['甲']])]

/-- Witness for C2: on a decomposition table that is one pure cycle with
no root-map escape, the resolver yields a definite result at fuel
`decCyc.length`, the cycle guard fires for a visited part, and the
top-level resolution of a cycle member returns failure with both cycle
members recorded as visited and missing. -/
theorem c2_witness :
    (expandPartF decCyc (fun _ => none) decCyc.length '甲' [] =
      some (expand_part decCyc (fun _ => none) '甲' [])) ∧
    (expandPartF decCyc (fun _ => none) 5 '甲' ['甲'] =
      some (none, ['甲'], [])) ∧
    expand_part decCyc (fun _ => none) '甲' [] =
      (none, ['乙', '甲'], ['乙', '甲']) :=
  ⟨c2_resolver_terminates.1 decCyc (fun _ => none) '甲' [],
   c2_resolver_terminates.2 decCyc (fun _ => none) 5 '甲' ['甲'] rfl
     (by decide),
   by rfl⟩

/-! ## Duplicate sub-parts within one resolution (C9) -/

theorem trySubWith_dup_in_visited (exp : Char → List Char → ExpRes)
    (q : Char) (hguard : ∀ v, q ∈ v → exp q v = some (none, v, []))
    (hmono : ∀ p v r vv md, exp p v = some (r, vv, md) → v ⊆ vv) :
    ∀ (l2 l3 v : List Char), q ∈ v →
      ∀ (ro : Option (List Char)) (vv md : List Char),
        trySubWith exp (l2 ++ q :: l3) v = some (ro, vv, md) → ro = none := by
  intro l2
  induction l2 with
  | nil =>
    intro l3 v hq ro vv md h
    rw [List.nil_append, trySubWith, hguard v hq] at h
    dsimp only at h
    simp only [Option.some.injEq, Prod.mk.injEq] at h
    exact h.1.symm
  | cons sp l2' ih =>
    intro l3 v hq ro vv md h
    rw [List.cons_append, trySubWith] at h
    cases hsp : exp sp v with
    | none => rw [hsp] at h; simp at h
    | some res =>
      obtain ⟨ro1, v1, md1⟩ := res
      rw [hsp] at h
      cases ro1 with
      | none =>
        dsimp only at h
        simp only [Option.some.injEq, Prod.mk.injEq] at h
        exact h.1.symm
      | some r1 =>
        dsimp only at h
        have hq1 : q ∈ v1 := hmono sp v _ v1 md1 hsp hq
        cases hrest : trySubWith exp (l2' ++ q :: l3) v1 with
        | none => rw [hrest] at h; simp at h
        | some res2 =>
          obtain ⟨ro2, v2, md2⟩ := res2
          rw [hrest] at h
          have h2 : ro2 = none := ih l3 v1 hq1 ro2 v2 md2 hrest
          subst h2
          dsimp only at h
          simp only [Option.some.injEq, Prod.mk.injEq] at h
          exact h.1.symm

theorem trySubWith_dup (exp : Char → List Char → ExpRes) (q : Char)
    (hguard : ∀ v, q ∈ v → exp q v = some (none, v, []))
    (hmono : ∀ p v r vv md, exp p v = some (r, vv, md) → v ⊆ vv)
    (hadds : ∀ v r vv md, q ∉ v → exp q v = some (r, vv, md) → q ∈ vv) :
    ∀ (l1 l2 l3 v : List Char) (ro : Option (List Char)) (vv md : List Char),
      trySubWith exp (l1 ++ q :: l2 ++ q :: l3) v = some (ro, vv, md) →
        ro = none := by
  intro l1
  induction l1 with
  | nil =>
    intro l2 l3 v ro vv md h
    rw [List.nil_append, List.cons_append, trySubWith] at h
    cases hsp : exp q v with
    | none => rw [hsp] at h; simp at h
    | some res =>
      obtain ⟨ro1, v1, md1⟩ := res
      rw [hsp] at h
      cases ro1 with
      | none =>
        dsimp only at h
        simp only [Option.some.injEq, Prod.mk.injEq] at h
        exact h.1.symm
      | some r1 =>
        dsimp only at h
        have hq1 : q ∈ v1 := by
          by_cases hqv : q ∈ v
          · rw [hguard v hqv] at hsp; simp at hsp
          · exact hadds v _ v1 md1 hqv hsp
        cases hrest : trySubWith exp (l2 ++ q :: l3) v1 with
        | none => rw [hrest] at h; simp at h
        | some res2 =>
          obtain ⟨ro2, v2, md2⟩ := res2
          rw [hrest] at h
          have h2 : ro2 = none :=
            trySubWith_dup_in_visited exp q hguard hmono l2 l3 v1 hq1
              ro2 v2 md2 hrest
          subst h2
          dsimp only at h
          simp only [Option.some.injEq, Prod.mk.injEq] at h
          exact h.1.symm
  | cons sp l1' ih =>
    intro l2 l3 v ro vv md h
    simp only [List.cons_append] at h
    rw [trySubWith] at h
    cases hsp : exp sp v with
    | none => rw [hsp] at h; simp at h
    | some res =>
      obtain ⟨ro1, v1, md1⟩ := res
      rw [hsp] at h
      cases ro1 with
      | none =>
        dsimp only at h
        simp only [Option.some.injEq, Prod.mk.injEq] at h
        exact h.1.symm
      | some r1 =>
        dsimp only at h
        cases hrest : trySubWith exp (l1' ++ q :: l2 ++ q :: l3) v1 with
        | none => rw [hrest] at h; simp at h
        | some res2 =>
          obtain ⟨ro2, v2, md2⟩ := res2
          rw [hrest] at h
          have h2 : ro2 = none := ih l2 l3 v1 ro2 v2 md2 hrest
          subst h2
          dsimp only at h
          simp only [Option.some.injEq, Prod.mk.injEq] at h
          exact h.1.symm

/-- C9: within one top-level resolution, the visited set only grows — a
part consumed by any resolver call is still in the returned visited set
whether the call failed or succeeded, and a non-root part not yet visited
is in it after its first expansion; consequently, inside a resolution,
any decomposition alternative that contains the same non-root sub-part
twice fails to resolve. -/
theorem c9_visited_never_removed :
    (∀ (dec : Decomp) (root : RootMap) (fuel : Nat) (part : Char)
      (visited : List Char) (r : Option (List Char)) (vv md : List Char),
      expandPartF dec root fuel part visited = some (r, vv, md) →
        visited ⊆ vv) ∧
    (∀ (dec : Decomp) (root : RootMap) (fuel : Nat) (part : Char)
      (visited : List Char) (r : Option (List Char)) (vv md : List Char),
      root part = none → part ∉ visited →
      expandPartF dec root fuel part visited = some (r, vv, md) →
        part ∈ vv) ∧
    (∀ (dec : Decomp) (root : RootMap) (fuel : Nat) (q : Char)
      (l1 l2 l3 visited : List Char) (ro : Option (List Char))
      (vv md : List Char), root q = none →
      trySubWith (expandPartF dec root fuel) (l1 ++ q :: l2 ++ q :: l3)
          visited = some (ro, vv, md) →
        ro = none) := by
  refine ⟨?_, ?_, ?_⟩
  · intro dec root fuel part visited r vv md h
    exact expandPartF_mono dec root fuel part visited r vv md h
  · intro dec root fuel part visited r vv md h1 h2 h
    exact expandPartF_adds dec root fuel part visited r vv md h1 h2 h
  · intro dec root fuel q l1 l2 l3 visited ro vv md hq h
    exact trySubWith_dup (expandPartF dec root fuel) q
      (fun v hv => expandPartF_guard dec root fuel q v hq hv)
      (expandPartF_mono dec root fuel)
      (fun v r vv md hnv hh =>
        expandPartF_adds dec root fuel q v r vv md hq hnv hh)
      l1 l2 l3 visited ro vv md h

/-- Table with a duplicated, individually resolvable sub-part, used as
the concrete witness input for claim C9. -/
def decDup : Decomp := [('昌', [['日', '日']]), ('日', [['口']])]

/-- Root map for `decDup`. -/
def rootDup : RootMap := fun c => if c = '口' then some 'K' else none

/-- Witness for C9: inside the resolution of 昌, the alternative 日日
fails although 日 alone resolves to the root 口. -/
theorem c9_witness :
    (none : Option (List Char)) = none ∧
    expand_part decDup rootDup '日' [] = (some ['口'], ['日'], []) ∧
    expand_part decDup rootDup '昌' [] =
      (none, ['日', '昌'], ['昌']) :=
  ⟨(c9_visited_never_removed.2.2 decDup rootDup 2 '日' [] [] [] ['昌']
      none ['日', '昌'] [] rfl (by rfl)).symm ▸ rfl,
   by rfl, by rfl⟩


/-! ## Shape-code derivation (C1) and the stage-1 driver (C4) -/

theorem getLast?_cons_eq (x : Char) (l : List Char) :
    (x :: l).getLast? = some (l.getLastD x) := by
  induction l generalizing x with
  | nil => rfl
  | cons y t ih => rw [List.getLast?_cons_cons, ih, List.getLastD_cons]

/-- C1: for a decomposition alternative whose parts all resolve, the
Shape-Code Deriver maps the resolved root symbols through the Root Map to
a letter sequence and returns: the full sequence at 2 or 3 letters; the
first three letters plus the last at 4 or more; and `None`, with a
(character, alternative) entry appended to the single-letter diagnostic
list, at exactly 1 letter, which is never emitted as a code. -/
theorem c1_shape_code_rule (dec : Decomp) (root : RootMap)
    (parts : List Char) (char : Char) (expanded md : List Char)
    (h : expandAll dec root (apply_replacements parts) =
      (some expanded, md)) :
    ((expanded.filterMap root).length = 2 ∨
        (expanded.filterMap root).length = 3 →
      get_code_for_decomp dec root parts char =
        (some (expanded.filterMap root), md, none)) ∧
    (4 ≤ (expanded.filterMap root).length →
      get_code_for_decomp dec root parts char =
        (some ((expanded.filterMap root).take 3 ++
          ((expanded.filterMap root).getLast?).toList), md, none)) ∧
    ((expanded.filterMap root).length = 1 →
      get_code_for_decomp dec root parts char =
        (none, md, some (char, parts))) := by
  have key : get_code_for_decomp dec root parts char =
      (match expanded.filterMap root with
        | [] => (none, md, none)
        | [_] => (none, md, some (char, parts))
        | [a, b] => (some [a, b], md, none)
        | [a, b, c] => (some [a, b, c], md, none)
        | a :: b :: c :: d :: rest =>
          (some [a, b, c, rest.getLastD d], md, none)) := by
    simp only [get_code_for_decomp, h]
  refine ⟨?_, ?_, ?_⟩
  · intro hlen
    rcases hc : expanded.filterMap root with
      _ | ⟨a, _ | ⟨b, _ | ⟨c, _ | ⟨d, rest⟩⟩⟩⟩
    · rw [hc] at hlen; simp at hlen
    · rw [hc] at hlen; simp at hlen
    · rw [key, hc]
    · rw [key, hc]
    · rw [hc] at hlen; simp only [List.length_cons] at hlen; omega
  · intro hlen
    rcases hc : expanded.filterMap root with
      _ | ⟨a, _ | ⟨b, _ | ⟨c, _ | ⟨d, rest⟩⟩⟩⟩
    · rw [hc] at hlen; simp at hlen
    · rw [hc] at hlen; simp at hlen
    · rw [hc] at hlen; simp at hlen
    · rw [hc] at hlen; simp at hlen
    · rw [key, hc]
      simp only [List.take_succ_cons, List.take_zero, getLast?_cons_eq,
        List.getLastD_cons, Option.toList_some]
      rfl
  · intro hlen
    rcases hc : expanded.filterMap root with
      _ | ⟨a, _ | ⟨b, _ | ⟨c, _ | ⟨d, rest⟩⟩⟩⟩
    · rw [hc] at hlen; simp at hlen
    · rw [key, hc]
    · rw [hc] at hlen; simp at hlen
    · rw [hc] at hlen; simp at hlen
    · rw [hc] at hlen; simp only [List.length_cons] at hlen; omega

/-- Root map used as concrete witness input for claim C1. -/
def rootW : RootMap := fun c =>
  if c = '一' then some 'g' else if c = '口' then some 'k'
  else if c = '日' then some 'j' else if c = '木' then some 'm'
  else if c = '月' then some 'y' else none

/-- Witness for C1: a five-letter resolution is truncated to first three
plus last, and a one-letter resolution is rejected with a single-letter
diagnostic entry. -/
theorem c1_witness :
    get_code_for_decomp [] rootW ['一', '口', '日', '木', '月'] '杳' =
      (some (['g', 'k', 'j', 'm', 'y'].take 3 ++
        (['g', 'k', 'j', 'm', 'y'].getLast?).toList), [], none) ∧
    get_code_for_decomp [] rootW ['一'] '一' =
      (none, [], some ('一', ['一'])) :=
  ⟨(c1_shape_code_rule [] rootW ['一', '口', '日', '木', '月'] '杳'
      ['一', '口', '日', '木', '月'] [] (by rfl)).2.1 (by decide),
   (c1_shape_code_rule [] rootW ['一'] '一' ['一'] [] (by rfl)).2.2
     (by decide)⟩

theorem get_code_ne_some_nil (dec : Decomp) (root : RootMap)
    (parts : List Char) (char : Char) :
    (get_code_for_decomp dec root parts char).1 ≠ some [] := by
  simp only [get_code_for_decomp]
  rcases expandAll dec root (apply_replacements parts) with ⟨eo, md⟩
  cases eo with
  | none => simp
  | some expanded =>
    rcases h : expanded.filterMap root with
      _ | ⟨a, _ | ⟨b, _ | ⟨c, _ | ⟨d, rest⟩⟩⟩⟩ <;> simp [h]

/-- C4: the Table Generator tries all of a character\x27s alternatives in
order and emits one output row for every alternative whose derived code
is non-`None` — not only the first successful one — so a character can
own several shape-code rows.  (The source tests Python truthiness
`if code:`, which coincides with non-`None` because a derived code is
never the empty string, `get_code_ne_some_nil`.) -/
theorem c4_all_successful_alternatives_emitted :
    (∀ (dec : Decomp) (root : RootMap) (char : Char)
      (alts : List (List Char)),
      (processAlts dec root char alts).1 =
        alts.filterMap fun parts =>
          ((get_code_for_decomp dec root parts char).1).map
            fun c => (char, c)) ∧
    (∀ (dec : Decomp) (root : RootMap) (char : Char)
      (decomps : List (List Char)) (rest : Decomp),
      (generatorMain dec root ((char, decomps) :: rest)).1 =
        (processAlts dec root char decomps).1 ++
          (generatorMain dec root rest).1) := by
  constructor
  · intro dec root char alts
    induction alts with
    | nil => rfl
    | cons parts rest ih =>
      rw [processAlts]
      rcases hg : get_code_for_decomp dec root parts char with ⟨code, md, se⟩
      rw [List.filterMap_cons, hg]
      rcases hp : processAlts dec root char rest with ⟨rows, succ, md2, sc2⟩
      rw [hp] at ih
      dsimp only at ih ⊢
      cases code with
      | none => exact ih
      | some c =>
        have hne : some c ≠ some ([] : List Char) := by
          have h0 := get_code_ne_some_nil dec root parts char
          rw [hg] at h0
          exact h0
        have hce : c.isEmpty = false := by
          cases c with
          | nil => exact absurd rfl hne
          | cons x xs => rfl
        simp [hce, ih]
  · intro dec root char decomps rest
    rw [generatorMain]

/-! ## Lemmas about the transliterator (C5, C6) -/

theorem suffix_eq_of_length_eq (k k2 fin : List Char) (h1 : k <:+ fin)
    (h2 : k2 <:+ fin) (h : k.length = k2.length) : k = k2 := by
  obtain ⟨t1, he1⟩ := h1
  obtain ⟨t2, he2⟩ := h2
  exact (List.append_inj' (he1.trans he2.symm) h).2

/-- In a length-descending association list with distinct keys, `find?`
with a suffix test returns exactly the pair whose key is the longest
suffix-matching key. -/
theorem find?_first_suffix (fin : List Char) :
    ∀ (L : List (List Char × Char)) (k : List Char) (v : Char),
      L.Pairwise (fun x y => y.1.length ≤ x.1.length) →
      (L.map Prod.fst).Nodup →
      (k, v) ∈ L → k <:+ fin →
      (∀ kv ∈ L, kv.1 <:+ fin → kv.1.length ≤ k.length) →
      L.find? (fun kv => kv.1.isSuffixOf fin) = some (k, v) := by
  intro L
  induction L with
  | nil => intro k v _ _ hm _ _; simp at hm
  | cons kv0 rest ih =>
    intro k v hpw hnd hm hsuf hmax
    rw [List.find?_cons]
    cases hs0 : kv0.1.isSuffixOf fin with
    | true =>
      have hsf0 : kv0.1 <:+ fin := List.isSuffixOf_iff_suffix.mp hs0
      rcases List.mem_cons.mp hm with heq | hmr
      · rw [← heq]
      · exfalso
        have hle1 : kv0.1.length ≤ k.length :=
          hmax kv0 (List.mem_cons_self _ _) hsf0
        have hle2 : k.length ≤ kv0.1.length :=
          (List.pairwise_cons.mp hpw).1 (k, v) hmr
        have hkeq : k = kv0.1 :=
          suffix_eq_of_length_eq k kv0.1 fin hsuf hsf0
            (le_antisymm hle2 hle1)
        rw [List.map_cons, List.nodup_cons] at hnd
        have hk2 : k ∈ rest.map Prod.fst :=
          List.mem_map.mpr ⟨(k, v), hmr, rfl⟩
        rw [hkeq] at hk2
        exact hnd.1 hk2
    | false =>
      have hne : ¬ kv0.1 <:+ fin := by
        intro hc
        have hb := List.isSuffixOf_iff_suffix.mpr hc
        rw [hs0] at hb
        simp at hb
      rcases List.mem_cons.mp hm with heq | hmr
      · exact absurd (show kv0.1 <:+ fin by rw [← heq]; exact hsuf) hne
      · rw [List.map_cons, List.nodup_cons] at hnd
        exact ih k v (List.pairwise_cons.mp hpw).2 hnd.2 hmr hsuf
          (fun kv hkv hs => hmax kv (List.mem_cons_of_mem _ hkv) hs)

theorem xhSorted_pairwise :
    xhSorted.Pairwise (fun x y => y.1.length ≤ x.1.length) := by decide

theorem xhSorted_nodup_keys : (xhSorted.map Prod.fst).Nodup := by decide

theorem xhSorted_perm : xhSorted.Perm XH := List.perm_insertionSort _ _

theorem xh_keys_long : ∀ kv ∈ XH, 2 ≤ kv.1.length := by decide

theorem lookup_eq_none_of_ne (t : List Char) :
    ∀ (L : List (List Char × Char)), (∀ kv ∈ L, kv.1 ≠ t) →
      L.lookup t = none := by
  intro L
  induction L with
  | nil => intro _; rfl
  | cons kv rest ih =>
    intro hne
    obtain ⟨k, b⟩ := kv
    rw [List.lookup]
    cases hk : t == k with
    | true =>
      exact absurd (beq_iff_eq.mp hk).symm
        (hne (k, b) (List.mem_cons_self _ _))
    | false =>
      exact ih fun kv hkv => hne kv (List.mem_cons_of_mem _ hkv)

/-- C5: for every final that is not itself a key of the scheme table but
has at least one scheme-table key as a suffix, the second output letter
is the scheme letter of the longest matching suffix (among multiple
matching suffixes the longest wins); only when no suffix matches does the
rule fall back to the first letter of the final.  The last two conjuncts
pin this second-letter rule to the Phonetic Transliterator itself, in
both its non-zero-initial and its zero-initial compound branch. -/
theorem c5_longest_suffix_wins :
    (∀ (fin k : List Char) (v : Char), xhLookup fin = none →
      (k, v) ∈ XH → k <:+ fin →
      (∀ kv ∈ XH, kv.1 <:+ fin → kv.1.length ≤ k.length) →
      _second_for_final fin = [v]) ∧
    (∀ fin : List Char, xhLookup fin = none →
      (∀ kv ∈ XH, ¬ kv.1 <:+ fin) →
      _second_for_final fin = fin.take 1) ∧
    (∀ (pinyin init fin a b : List Char),
      _split_initial_final pinyin = (init, fin) → init ≠ [] →
      _xiaohe_double pinyin = some (a, b) → b = _second_for_final fin) ∧
    (∀ fin : List Char, fin ≠ [] →
      ¬(fin ∈ SINGLE_VOWELS ∨ (fin.length = 1 ∧ (fin.headD ' ').isAlpha)) →
      (_xiaohe_double_for_zero_initial fin).2 = _second_for_final fin) := by
  refine ⟨?_, ?_, ?_, ?_⟩
  · intro fin k v h0 hm hs hmax
    rw [_second_for_final, h0]
    dsimp only
    rw [find?_first_suffix fin xhSorted k v xhSorted_pairwise
      xhSorted_nodup_keys (xhSorted_perm.mem_iff.mpr hm) hs
      (fun kv hkv hsf => hmax kv (xhSorted_perm.mem_iff.mp hkv) hsf)]
  · intro fin h0 hnone
    rw [_second_for_final, h0]
    dsimp only
    rw [List.find?_eq_none.mpr]
    intro kv hkv hc
    exact absurd (List.isSuffixOf_iff_suffix.mp hc)
      (hnone kv (xhSorted_perm.mem_iff.mp hkv))
  · intro pinyin init fin a b hsp hinit hd
    rw [_xiaohe_double, hsp] at hd
    dsimp only at hd
    rw [if_neg hinit] at hd
    cases hxi : xhLookup init with
    | some w =>
      rw [hxi] at hd
      dsimp only at hd
      by_cases hsec : _second_for_final fin = []
      · rw [if_pos (Or.inr hsec)] at hd; simp at hd
      · rw [if_neg (by simp [hsec])] at hd
        simp only [Option.some.injEq, Prod.mk.injEq] at hd
        exact hd.2.symm
    | none =>
      rw [hxi] at hd
      dsimp only at hd
      have htake : init.take 1 ≠ [] := by
        cases init with
        | nil => exact absurd rfl hinit
        | cons x xs => simp
      by_cases hsec : _second_for_final fin = []
      · rw [if_pos (Or.inr hsec)] at hd; simp at hd
      · rw [if_neg (by simp [hsec, htake])] at hd
        simp only [Option.some.injEq, Prod.mk.injEq] at hd
        exact hd.2.symm
  · intro fin hne hcond
    rw [_xiaohe_double_for_zero_initial, if_neg hne, if_neg hcond]

/-- Witness for C5: the final ueng is not a scheme key; among the scheme
keys only eng is a suffix of it, so its letter g is chosen; the final er
matches no key and falls back to its first letter. -/
theorem c5_witness :
    _second_for_final ['u', 'e', 'n', 'g'] = ['g'] ∧
    _second_for_final ['e', 'r'] = ['e', 'r'].take 1 :=
  ⟨c5_longest_suffix_wins.1 ['u', 'e', 'n', 'g'] ['e', 'n', 'g'] 'g'
     (by decide) (by decide) (by decide) (by decide),
   c5_longest_suffix_wins.2.1 ['e', 'r'] (by decide) (by decide)⟩

theorem zero_initial_single (c : Char) :
    _xiaohe_double_for_zero_initial [c] = ([c], [c]) := by
  rw [_xiaohe_double_for_zero_initial, if_neg (by simp)]
  by_cases hb : [c] ∈ SINGLE_VOWELS ∨
      (([c] : List Char).length = 1 ∧ (([c] : List Char).headD ' ').isAlpha)
  · rw [if_pos hb]
    simp
  · rw [if_neg hb]
    have h1 : xhLookup [c] = none := by
      apply lookup_eq_none_of_ne
      intro kv hkv heq
      have hl := xh_keys_long kv hkv
      rw [heq] at hl
      simp at hl
    have h2 : xhSorted.find? (fun kv => kv.1.isSuffixOf [c]) = none := by
      rw [List.find?_eq_none]
      intro kv hkv hc
      have hlen := (List.isSuffixOf_iff_suffix.mp hc).length_le
      have hl := xh_keys_long kv (xhSorted_perm.mem_iff.mp hkv)
      simp at hlen
      omega
    rw [_second_for_final, h1]
    dsimp only
    rw [h2]
    simp

/-- C6: for every zero-initial syllable whose final is a single letter,
the Phonetic Transliterator returns that letter twice. -/
theorem c6_zero_initial_single_letter :
    (∀ c : Char, _xiaohe_double_for_zero_initial [c] = ([c], [c])) ∧
    (∀ (p : List Char) (c : Char), _split_initial_final p = ([], [c]) →
      _xiaohe_double p = some ([c], [c])) := by
  constructor
  · exact zero_initial_single
  · intro p c hsp
    rw [_xiaohe_double, hsp]
    dsimp only
    rw [if_pos rfl]
    exact congrArg some (zero_initial_single c)

/-- Witness for C6: the bare final a yields (a, a). -/
theorem c6_witness : _xiaohe_double ['a'] = some (['a'], ['a']) :=
  c6_zero_initial_single_letter.2 ['a'] 'a' (by decide)

/-! ## Stage-2 driver (C3, C10) -/

theorem processShapes_short (ch : Char) (pinyins : List (List Char))
    (spre : List (List Char)) (shape : List Char)
    (spost : List (List Char)) (hpre : ∀ s ∈ spre, ¬ s.length < 2)
    (hshort : shape.length < 2) :
    processShapes ch pinyins (spre ++ shape :: spost) =
      .error (ch, shape) := by
  induction spre with
  | nil => rw [List.nil_append, processShapes, if_pos hshort]
  | cons s spre2 ih =>
    rw [List.cons_append, processShapes,
      if_neg (hpre s (List.mem_cons_self _ _))]
    rw [ih fun x hx => hpre x (List.mem_cons_of_mem _ hx)]

/-- C3: a shape code of length less than 2 for a character being
processed (one that has phonetic readings) aborts the entire run with a
fatal diagnostic naming the offending character and code — the run
result is the error, so no output rows exist — and the abort happens at
the first offending code, not as a per-row skip. -/
theorem c3_short_code_aborts_run (pm : Char → List (List Char))
    (ch : Char) (spre : List (List Char)) (shape : List Char)
    (spost : List (List Char)) (rest : List (Char × List (List Char)))
    (hpy : pm ch ≠ []) (hpre : ∀ s ∈ spre, ¬ s.length < 2)
    (hshort : shape.length < 2) :
    processShapes ch (pm ch) (spre ++ shape :: spost) =
      .error (ch, shape) ∧
    transfererMain pm ((ch, spre ++ shape :: spost) :: rest) =
      .error (ch, shape) := by
  have hps := processShapes_short ch (pm ch) spre shape spost hpre hshort
  refine ⟨hps, ?_⟩
  rw [transfererMain, if_neg hpy, hps]

/-- Witness for C3: a character with one reading and shape codes JG and
x aborts the whole run naming (旦, x). -/
theorem c3_witness :
    transfererMain (fun c => if c = '旦' then [['d', 'a', 'n']] else [])
      [('旦', [['J', 'G']] ++ ['x'] :: [])] = .error ('旦', ['x']) :=
  (c3_short_code_aborts_run
    (fun c => if c = '旦' then [['d', 'a', 'n']] else []) '旦'
    [['J', 'G']] ['x'] [] [] (by decide) (by decide) (by decide)).2

/-- C10: the fatal length validation runs only for characters that have
at least one phonetic reading: a character with no readings is recorded
as missing-phonetic and skipped entirely, its shape codes never
validated, so even a 1-letter shape code on it cannot abort the run. -/
theorem c10_missing_phonetic_skips_validation
    (pm : Char → List (List Char)) (ch : Char)
    (shapes : List (List Char)) (rest : List (Char × List (List Char)))
    (h : pm ch = []) :
    transfererMain pm ((ch, shapes) :: rest) =
      (match transfererMain pm rest with
       | .error e => .error e
       | .ok (rows, mp, cc) => .ok (rows, ch :: mp, cc)) ∧
    transfererMain pm [(ch, shapes)] = .ok ([], [ch], []) := by
  constructor
  · rw [transfererMain, if_pos h]
  · rw [transfererMain, if_pos h]
    rfl

/-- Witness for C10: a pinyin-less character carrying a 1-letter shape
code is skipped and recorded, and the run succeeds. -/
theorem c10_witness :
    transfererMain (fun _ => []) [('旦', [['x']])] =
      .ok ([], ['旦'], []) :=
  (c10_missing_phonetic_skips_validation (fun _ => []) '旦' [['x']] []
    rfl).2

end Flypy
